import Mathlib

/-!
Verification development for the Amsgbot news aggregation and push pipeline.

The Python sources are embedded shallowly: pure fragments become Lean
functions, the stateful sender/dispatcher becomes explicit state passing,
`time.time()` values and Python floats are modelled as exact rationals, and
the network outcome of an HTTP POST is an explicit boolean input.
-/

namespace Amsgbot

/-! ## dingTalk.py: DingTalkSender and the dispatcher worker loop -/

/-- Constant MAX_PER_MINUTE from dingTalk.py (also the `max_per_minute`
default of `DingTalkSender.__init__`). -/
def MAX_PER_MINUTE : Nat := 20

/-- Mutable state of one `DingTalkSender`: `last_minute` (the start of the
current fixed rate window, epoch seconds) and `sent_count` (successful sends
counted against that window). A fresh sender has `last_minute = time.time()`
and `sent_count = 0`. -/
structure SenderState where
  last_minute : ℚ
  sent_count : Nat
deriving DecidableEq

/-- DingTalkSender.can_send: under the lock, if 60 seconds or more have
passed since `last_minute` the window is lazily reset (`last_minute = now`,
`sent_count = 0`); then it reports whether `sent_count < max_per_minute`.
Returns the state the call leaves behind together with the verdict. -/
def can_send (maxPer : Nat) (s : SenderState) (now : ℚ) : SenderState × Bool :=
  let s1 := if 60 ≤ now - s.last_minute then ⟨now, 0⟩ else s
  (s1, decide (s1.sent_count < maxPer))

/-- DingTalkSender.send_message: posts the payload; on HTTP 200 it increments
`sent_count` and returns True, on any other status or a transport error it
returns False and leaves the counter alone. `httpOk` stands for
`response.status_code == 200`. -/
def send_message (s : SenderState) (httpOk : Bool) : SenderState × Bool :=
  if httpOk then (⟨s.last_minute, s.sent_count + 1⟩, true) else (s, false)

/-- One `DingTalkDispatcher._worker` delivery attempt as seen by a single
sender: `_get_next_sender` runs `can_send` at time `now`, and only when that
returns true does the worker call `send_message`, whose network outcome is
`httpOk`. Produces the new sender state and, on a successful delivery, the
pair (send time, window start the send was counted against). -/
def worker_tick (maxPer : Nat) (s : SenderState) (now : ℚ) (httpOk : Bool) :
    SenderState × Option (ℚ × ℚ) :=
  let cs := can_send maxPer s now
  if cs.2 then
    let sm := send_message cs.1 httpOk
    (sm.1, if sm.2 then some (now, cs.1.last_minute) else none)
  else (cs.1, none)

/-- The sequential worker loop run over a list of delivery attempts, each an
attempt time paired with its HTTP outcome; collects every successful delivery
as (send time, window start). -/
def worker_run (maxPer : Nat) (s : SenderState) :
    List (ℚ × Bool) → SenderState × List (ℚ × ℚ)
  | [] => (s, [])
  | a :: rest =>
    let td := worker_tick maxPer s a.1 a.2
    let rec_ := worker_run maxPer td.1 rest
    (rec_.1, td.2.toList ++ rec_.2)

/-- Invariant tying a sender state to the deliveries recorded so far:
the counter is within budget, every recorded window start is at most the
current one, the deliveries charged to the current window are counted by
`sent_count`, and no window was ever charged more than `maxPer` times. -/
def WInv (maxPer : Nat) (s : SenderState) (ds : List (ℚ × ℚ)) : Prop :=
  s.sent_count ≤ maxPer ∧
  (∀ e ∈ ds, e.2 ≤ s.last_minute) ∧
  ds.countP (fun e => decide (e.2 = s.last_minute)) ≤ s.sent_count ∧
  ∀ w : ℚ, ds.countP (fun e => decide (e.2 = w)) ≤ maxPer

lemma worker_tick_sent (maxPer : Nat) (s : SenderState) (now : ℚ) (s1 : SenderState)
    (hs1 : s1 = if 60 ≤ now - s.last_minute then ⟨now, 0⟩ else s)
    (hc : s1.sent_count < maxPer) :
    worker_tick maxPer s now true = (⟨s1.last_minute, s1.sent_count + 1⟩,
      some (now, s1.last_minute)) := by
  simp only [worker_tick, can_send, send_message, ← hs1, hc, decide_eq_true_eq, if_pos, if_true]

lemma worker_tick_failed (maxPer : Nat) (s : SenderState) (now : ℚ) (s1 : SenderState)
    (hs1 : s1 = if 60 ≤ now - s.last_minute then ⟨now, 0⟩ else s)
    (hc : s1.sent_count < maxPer) :
    worker_tick maxPer s now false = (s1, none) := by
  simp only [worker_tick, can_send, send_message, ← hs1, hc, decide_eq_true_eq, if_pos,
    if_false, Bool.false_eq_true, ite_false]

lemma worker_tick_full (maxPer : Nat) (s : SenderState) (now : ℚ) (httpOk : Bool)
    (s1 : SenderState)
    (hs1 : s1 = if 60 ≤ now - s.last_minute then ⟨now, 0⟩ else s)
    (hc : ¬ s1.sent_count < maxPer) :
    worker_tick maxPer s now httpOk = (s1, none) := by
  simp only [worker_tick, can_send, send_message, ← hs1, hc, decide_eq_true_eq, if_false,
    decide_eq_true_eq, ite_false]

lemma winv_of_append_none (maxPer : Nat) (s : SenderState) (ds : List (ℚ × ℚ))
    (h : WInv maxPer s ds) : WInv maxPer s (ds ++ ([] : List (ℚ × ℚ))) := by
  simpa using h

lemma worker_tick_inv (maxPer : Nat) (s : SenderState) (ds : List (ℚ × ℚ))
    (now : ℚ) (httpOk : Bool) (h : WInv maxPer s ds) :
    WInv maxPer (worker_tick maxPer s now httpOk).1
      (ds ++ (worker_tick maxPer s now httpOk).2.toList) := by
  obtain ⟨h1, h2, h3, h4⟩ := h
  set s1 : SenderState := if 60 ≤ now - s.last_minute then ⟨now, 0⟩ else s with hs1
  have hwin : (∀ e ∈ ds, e.2 ≤ s1.last_minute) ∧
      ds.countP (fun e => decide (e.2 = s1.last_minute)) ≤ s1.sent_count ∧
      s1.sent_count ≤ maxPer := by
    by_cases hr : (60 : ℚ) ≤ now - s.last_minute
    · have hlt : s.last_minute < now := by linarith
      have hle : ∀ e ∈ ds, e.2 ≤ now := fun e he => le_of_lt (lt_of_le_of_lt (h2 e he) hlt)
      have hcount0 : ds.countP (fun e => decide (e.2 = now)) = 0 := by
        apply List.countP_eq_zero.mpr
        intro e he
        have := lt_of_le_of_lt (h2 e he) hlt
        simp only [decide_eq_true_eq]
        exact fun hcontra => absurd hcontra (ne_of_lt this)
      rw [hs1, if_pos hr]
      exact ⟨hle, by simpa using Nat.le_of_eq hcount0, Nat.zero_le _⟩
    · rw [hs1, if_neg hr]
      exact ⟨h2, h3, h1⟩
  obtain ⟨g2, g3, g1⟩ := hwin
  by_cases hc : s1.sent_count < maxPer
  · cases httpOk
    · rw [worker_tick_failed maxPer s now s1 hs1 hc]
      exact winv_of_append_none maxPer s1 ds ⟨g1, g2, g3, fun w => h4 w⟩
    · rw [worker_tick_sent maxPer s now s1 hs1 hc]
      refine ⟨hc, ?_, ?_, ?_⟩
      · intro e he
        rcases List.mem_append.mp he with he | he
        · exact g2 e he
        · simp only [Option.toList_some, List.mem_singleton] at he
          simp [he]
      · rw [List.countP_append]
        simp only [Option.toList_some, List.countP_singleton, decide_eq_true_eq]
        simp only [decide_eq_true_eq, if_pos]
        omega
      · intro w
        rw [List.countP_append]
        by_cases hw : w = s1.last_minute
        · subst hw
          have hone : List.countP (fun e => decide (e.2 = s1.last_minute))
              (some ((now, s1.last_minute) : ℚ × ℚ)).toList = 1 := by simp
          rw [hone]
          omega
        · have hzero : List.countP (fun e => decide (e.2 = w))
              (some ((now, s1.last_minute) : ℚ × ℚ)).toList = 0 := by
            simp only [Option.toList_some, List.countP_singleton, decide_eq_true_eq]
            exact if_neg (fun hcontra => hw hcontra.symm)
          rw [hzero]
          simpa using h4 w
  · rw [worker_tick_full maxPer s now httpOk s1 hs1 hc]
    exact winv_of_append_none maxPer s1 ds ⟨g1, g2, g3, fun w => h4 w⟩

lemma worker_run_inv (maxPer : Nat) :
    ∀ (attempts : List (ℚ × Bool)) (s : SenderState) (ds : List (ℚ × ℚ)),
      WInv maxPer s ds →
      WInv maxPer (worker_run maxPer s attempts).1
        (ds ++ (worker_run maxPer s attempts).2)
  | [], s, ds, h => by simpa [worker_run] using h
  | a :: rest, s, ds, h => by
    have step := worker_tick_inv maxPer s ds a.1 a.2 h
    have ih := worker_run_inv maxPer rest (worker_tick maxPer s a.1 a.2).1
      (ds ++ (worker_tick maxPer s a.1 a.2).2.toList) step
    simpa [worker_run, List.append_assoc] using ih

lemma worker_run_from_init (maxPer : Nat) (t0 : ℚ) (attempts : List (ℚ × Bool)) :
    WInv maxPer (worker_run maxPer ⟨t0, 0⟩ attempts).1
      (worker_run maxPer ⟨t0, 0⟩ attempts).2 := by
  have h0 : WInv maxPer ⟨t0, 0⟩ [] := by
    refine ⟨Nat.zero_le _, ?_, ?_, ?_⟩ <;> simp [WInv]
  simpa using worker_run_inv maxPer attempts ⟨t0, 0⟩ [] h0

/-- C1 (counterexample). The claim that every rolling 60-second interval sees
at most 20 successful deliveries is false for the code: starting a fresh
sender at time 0, 20 deliveries at t = 59 exhaust the first fixed window,
the attempt at t = 60 lazily resets the window, and 20 more deliveries
succeed at t = 60; the rolling interval from t = 59 to t = 119 therefore
holds 40 successful deliveries, twice `max_per_minute`. -/
theorem c1_rolling_window_counterexample :
    ((worker_run MAX_PER_MINUTE ⟨0, 0⟩
        (List.replicate 20 ((59 : ℚ), true) ++ List.replicate 20 ((60 : ℚ), true))).2.countP
      (fun e => decide (59 ≤ e.1 ∧ e.1 < 59 + 60))) = 40 ∧
    ¬ (40 ≤ MAX_PER_MINUTE) := by
  constructor
  · with_unfolding_all decide
  · decide

/-- C1 (amended). The dispatcher's limiter is a lazily reset fixed window,
not a rolling one: along every execution of the sequential worker loop from
a fresh sender, at most `MAX_PER_MINUTE` (20) successful deliveries are
charged against any one value of `last_minute` (one fixed window). Rolling
intervals straddling a reset can see up to twice that
(`c1_rolling_window_counterexample`). -/
theorem c1_fixed_window_bound :
    ∀ (t0 : ℚ) (attempts : List (ℚ × Bool)) (w : ℚ),
      ((worker_run MAX_PER_MINUTE ⟨t0, 0⟩ attempts).2.countP
        (fun e => decide (e.2 = w))) ≤ MAX_PER_MINUTE := by
  intro t0 attempts w
  exact (worker_run_from_init MAX_PER_MINUTE t0 attempts).2.2.2 w

/-- C2. Along every execution of the sequential worker loop from a fresh
sender, `sent_count` never exceeds `max_per_minute` (in particular while the
clock is inside the current window); and whenever a selection attempt
(`can_send`) finds the clock 60 seconds or more past `last_minute`, it
lazily resets the window to `last_minute = now`, `sent_count = 0` — a fixed,
not sliding, window. -/
theorem c2_sent_count_invariant_and_lazy_reset :
    (∀ (t0 : ℚ) (attempts : List (ℚ × Bool)),
      (worker_run MAX_PER_MINUTE ⟨t0, 0⟩ attempts).1.sent_count ≤ MAX_PER_MINUTE) ∧
    ∀ (s : SenderState) (now : ℚ), 60 ≤ now - s.last_minute →
      (can_send MAX_PER_MINUTE s now).1 = ⟨now, 0⟩ ∧
      (can_send MAX_PER_MINUTE s now).2 = decide (0 < MAX_PER_MINUTE) := by
  constructor
  · intro t0 attempts
    exact (worker_run_from_init MAX_PER_MINUTE t0 attempts).1
  · intro s now h
    constructor
    · simp [can_send, if_pos h]
    · simp [can_send, if_pos h, MAX_PER_MINUTE]

/-! ## difflib.SequenceMatcher, as used by ContentDeduplicator.calculate_similarity

`calculate_similarity(text1, text2)` returns
`SequenceMatcher(None, text1, text2).ratio()`. The matcher is embedded
faithfully for `isjunk = None`: `b2j` with the autojunk heuristic, the
`find_longest_match` dynamic-programming scan with its strictly-greater best
update and the two non-junk extension loops (`bjunk` is empty when `isjunk`
is None, so the junk extension loops never fire and are elided), and the
matching-block recursion. Python's float ratio is modelled as an exact
rational. -/

/-- Occurrence lists of difflib's `b2j` before autojunk: the indices `j` with
`b[j] = c`, in ascending order. -/
def b2jAll (b : List Char) (c : Char) : List Nat :=
  (List.range b.length).filter (fun j => b.getD j ' ' = c)

/-- difflib's `b2j` for `SequenceMatcher(None, a, b)`: when `b` has at least
200 elements, characters occurring more than `b.length / 100 + 1` times are
popular and their entries are dropped from the map. -/
def b2j (b : List Char) (c : Char) : List Nat :=
  let js := b2jAll b c
  if 200 ≤ b.length ∧ b.length / 100 + 1 < js.length then [] else js

/-- A candidate longest matching block: start in `a`, start in `b`, size. -/
structure FlmBest where
  i : Nat
  j : Nat
  size : Nat
deriving DecidableEq

/-- Inner loop of `find_longest_match` for one row `i`: for each `j` with
`b[j] = a[i]` (already restricted to `blo ≤ j < bhi`, ascending), the common
suffix ending at `(i, j)` is one longer than the one ending at `(i-1, j-1)`
read from the previous row `old` (absent entries count 0); a strictly longer
match replaces the best, recorded as `(i-k+1, j-k+1, k)`. The accumulator
carries the fresh `newj2len` row and the best so far. -/
def flmInner (old : Nat → Nat) (i : Nat) (js : List Nat)
    (st : (Nat → Nat) × FlmBest) : (Nat → Nat) × FlmBest :=
  js.foldl
    (fun acc j =>
      let k := (if j = 0 then 0 else old (j - 1)) + 1
      ((fun q => if q = j then k else acc.1 q),
        if acc.2.size < k then ⟨i + 1 - k, j + 1 - k, k⟩ else acc.2))
    st

/-- The row loop of `find_longest_match`: scan `i` over `alo..ahi-1`,
threading the `j2len` row (reset to empty each row) and the best block
(initially `(alo, blo, 0)`). The `continue` on `j < blo` and the `break` on
`j ≥ bhi` of the Python loop amount to the filter below because the
occurrence lists are ascending. -/
def flmLoop (bget : Char → List Nat) (a : List Char) (alo ahi blo bhi : Nat) :
    FlmBest :=
  ((List.range' alo (ahi - alo)).foldl
    (fun st i =>
      flmInner st.1 i
        ((bget (a.getD i ' ')).filter (fun j => blo ≤ j ∧ j < bhi))
        ((fun _ => 0), st.2))
    ((fun _ => 0), ⟨alo, blo, 0⟩)).2

/-- Left extension loop of `find_longest_match`: grow the block while the
characters just before it match. Fuel bounds the iterations; `bi` at the
call site is enough since `bi` strictly decreases. -/
def extendLeft (a b : List Char) (alo blo : Nat) :
    Nat → Nat → Nat → Nat → Nat × Nat × Nat
  | 0, bi, bj, size => (bi, bj, size)
  | fuel + 1, bi, bj, size =>
    if alo < bi ∧ blo < bj ∧ a.getD (bi - 1) ' ' = b.getD (bj - 1) ' ' then
      extendLeft a b alo blo fuel (bi - 1) (bj - 1) (size + 1)
    else (bi, bj, size)

/-- Right extension loop of `find_longest_match`: grow the block while the
characters just after it match. Fuel `ahi` at the call site is enough since
`bi + size` strictly increases and stays below `ahi`. -/
def extendRight (a b : List Char) (ahi bhi : Nat) (bi bj : Nat) :
    Nat → Nat → Nat
  | 0, size => size
  | fuel + 1, size =>
    if bi + size < ahi ∧ bj + size < bhi ∧
        a.getD (bi + size) ' ' = b.getD (bj + size) ' ' then
      extendRight a b ahi bhi bi bj fuel (size + 1)
    else size

/-- difflib `find_longest_match` on `a[alo..ahi)` and `b[blo..bhi)`: the
dynamic-programming scan followed by the two extension loops. -/
def find_longest_match (bget : Char → List Nat) (a b : List Char)
    (alo ahi blo bhi : Nat) : FlmBest :=
  let m := flmLoop bget a alo ahi blo bhi
  let el := extendLeft a b alo blo m.i m.i m.j m.size
  ⟨el.1, el.2.1, extendRight a b ahi bhi el.1 el.2.1 ahi el.2.2⟩

/-- Total size of the matching blocks of `get_matching_blocks`, written as a
direct recursion over the two subwindows of the longest match (difflib uses
an explicit queue; the blocks are identical, only the traversal order
differs, and only the total enters the ratio). The fuel
`a.length + b.length + 1` given below suffices: each recursive call strictly
shrinks the combined window. -/
def totalMatched (bget : Char → List Nat) (a b : List Char) :
    Nat → Nat → Nat → Nat → Nat → Nat
  | 0, _, _, _, _ => 0
  | fuel + 1, alo, ahi, blo, bhi =>
    let m := find_longest_match bget a b alo ahi blo bhi
    if m.size = 0 then 0
    else
      totalMatched bget a b fuel alo m.i blo m.j + m.size +
        totalMatched bget a b fuel (m.i + m.size) ahi (m.j + m.size) bhi

/-- SequenceMatcher(None, a, b).ratio(): 2*M / T, where M is the total size
of the matching blocks and T the total length; 1.0 when both are empty.
Python computes a float; the value is modelled as the exact rational. -/
def ratio (a b : List Char) : ℚ :=
  if a.length + b.length = 0 then 1
  else ((2 * totalMatched (b2j b) a b (a.length + b.length + 1) 0 a.length 0 b.length : ℕ) : ℚ)
    / ((a.length + b.length : ℕ) : ℚ)

/-- ContentDeduplicator.calculate_similarity. -/
def calculate_similarity (text1 text2 : String) : ℚ :=
  ratio text1.toList text2.toList

/-- Well-placedness of a candidate block inside the window. -/
def BestIn (alo ahi blo bhi : Nat) (m : FlmBest) : Prop :=
  alo ≤ m.i ∧ blo ≤ m.j ∧ m.i + m.size ≤ ahi ∧ m.j + m.size ≤ bhi

/-- Bound on a `j2len` row: every nonzero entry sits in the `b` window, is at
most the diagonal length available above `blo`, and at most `bound` (the
number of rows scanned). -/
def RowBound (blo bhi bound : Nat) (f : Nat → Nat) : Prop :=
  ∀ j, f j ≠ 0 → blo ≤ j ∧ j < bhi ∧ f j ≤ j + 1 - blo ∧ f j ≤ bound

lemma flmInner_inv (alo ahi blo bhi : Nat) (old : Nat → Nat) (i : Nat)
    (halo : alo ≤ i) (hahi : i < ahi)
    (hold : RowBound blo bhi (i - alo) old) :
    ∀ (js : List Nat) (st : (Nat → Nat) × FlmBest),
      (∀ j ∈ js, blo ≤ j ∧ j < bhi) →
      RowBound blo bhi (i + 1 - alo) st.1 →
      BestIn alo ahi blo bhi st.2 →
      RowBound blo bhi (i + 1 - alo) (flmInner old i js st).1 ∧
        BestIn alo ahi blo bhi (flmInner old i js st).2
  | [], st, _, hrow, hbest => ⟨hrow, hbest⟩
  | j :: js, st, hjs, hrow, hbest => by
    have hj := hjs j (List.mem_cons_self j js)
    have hk : (if j = 0 then 0 else old (j - 1)) + 1 ≤ j + 1 - blo ∧
        (if j = 0 then 0 else old (j - 1)) + 1 ≤ i + 1 - alo := by
      by_cases hj0 : j = 0
      · have hblo0 : blo = 0 := by
          rw [hj0] at hj
          exact Nat.le_zero.mp hj.1
        rw [if_pos hj0]
        omega
      · rw [if_neg hj0]
        by_cases hz : old (j - 1) = 0
        · rw [hz]
          have := hj.1
          omega
        · obtain ⟨hb1, hb2, hb3, hb4⟩ := hold (j - 1) hz
          have := hj.1
          omega
    have step : flmInner old i (j :: js) st = flmInner old i js
        ((fun q => if q = j then (if j = 0 then 0 else old (j - 1)) + 1 else st.1 q),
          if st.2.size < (if j = 0 then 0 else old (j - 1)) + 1 then
            ⟨i + 1 - ((if j = 0 then 0 else old (j - 1)) + 1),
              j + 1 - ((if j = 0 then 0 else old (j - 1)) + 1),
              (if j = 0 then 0 else old (j - 1)) + 1⟩
          else st.2) := by
      simp only [flmInner, List.foldl_cons]
    rw [step]
    apply flmInner_inv alo ahi blo bhi old i halo hahi hold js _
      (fun q hq => hjs q (List.mem_cons_of_mem j hq))
    · intro q hq
      by_cases hqj : q = j
      · subst hqj
        simp only [if_pos rfl] at hq ⊢
        exact ⟨hj.1, hj.2, hk.1, hk.2⟩
      · simp only [if_neg hqj] at hq ⊢
        exact hrow q hq
    · dsimp only
      by_cases hupd : st.2.size < (if j = 0 then 0 else old (j - 1)) + 1
      · rw [if_pos hupd]
        obtain ⟨hk1, hk2⟩ := hk
        refine ⟨?_, ?_, ?_, ?_⟩ <;> dsimp only <;> omega
      · rw [if_neg hupd]
        exact hbest

lemma flmLoop_inv (bget : Char → List Nat) (a : List Char)
    (alo ahi blo bhi : Nat) (halo : alo ≤ ahi) (hblo : blo ≤ bhi) :
    ∀ n, n ≤ ahi - alo →
      RowBound blo bhi n
        (((List.range' alo n).foldl
          (fun st i =>
            flmInner st.1 i
              ((bget (a.getD i ' ')).filter (fun j => blo ≤ j ∧ j < bhi))
              ((fun _ => 0), st.2))
          ((fun _ => 0), ⟨alo, blo, 0⟩)).1) ∧
      BestIn alo ahi blo bhi
        (((List.range' alo n).foldl
          (fun st i =>
            flmInner st.1 i
              ((bget (a.getD i ' ')).filter (fun j => blo ≤ j ∧ j < bhi))
              ((fun _ => 0), st.2))
          ((fun _ => 0), ⟨alo, blo, 0⟩)).2)
  | 0, _ => by
    constructor
    · intro j hj
      simp at hj
    · exact ⟨Nat.le_refl _, Nat.le_refl _, by simpa using halo, by simpa using hblo⟩
  | n + 1, hn => by
    have ih := flmLoop_inv bget a alo ahi blo bhi halo hblo n (Nat.le_of_succ_le hn)
    rw [List.range'_1_concat, List.foldl_append, List.foldl_cons, List.foldl_nil]
    set prev := ((List.range' alo n).foldl
      (fun st i =>
        flmInner st.1 i
          ((bget (a.getD i ' ')).filter (fun j => blo ≤ j ∧ j < bhi))
          ((fun _ => 0), st.2))
      ((fun _ => 0), ⟨alo, blo, 0⟩)) with hprev
    have hi1 : alo ≤ alo + n := Nat.le_add_right _ _
    have hi2 : alo + n < ahi := by omega
    have hold : RowBound blo bhi (alo + n - alo) prev.1 := by
      have heq : alo + n - alo = n := by omega
      rw [heq]
      exact ih.1
    have hfilter : ∀ j ∈ (bget (a.getD (alo + n) ' ')).filter
        (fun j => blo ≤ j ∧ j < bhi), blo ≤ j ∧ j < bhi := by
      intro j hj
      have := List.of_mem_filter hj
      simpa using this
    have hzero : RowBound blo bhi (alo + n + 1 - alo) (fun _ : Nat => 0) := by
      intro j hj
      exact absurd rfl hj
    have hres := flmInner_inv alo ahi blo bhi prev.1 (alo + n) hi1 hi2 hold
      ((bget (a.getD (alo + n) ' ')).filter (fun j => blo ≤ j ∧ j < bhi))
      ((fun _ => 0), prev.2) hfilter hzero ih.2
    have heq1 : alo + n + 1 - alo = n + 1 := by omega
    rwa [heq1] at hres

lemma extendLeft_spec (a b : List Char) (alo blo : Nat) :
    ∀ (fuel bi bj size : Nat), alo ≤ bi → blo ≤ bj →
      alo ≤ (extendLeft a b alo blo fuel bi bj size).1 ∧
      blo ≤ (extendLeft a b alo blo fuel bi bj size).2.1 ∧
      (extendLeft a b alo blo fuel bi bj size).1 +
        (extendLeft a b alo blo fuel bi bj size).2.2 = bi + size ∧
      (extendLeft a b alo blo fuel bi bj size).2.1 +
        (extendLeft a b alo blo fuel bi bj size).2.2 = bj + size
  | 0, bi, bj, size, h1, h2 => ⟨h1, h2, rfl, rfl⟩
  | fuel + 1, bi, bj, size, h1, h2 => by
    unfold extendLeft
    by_cases hg : alo < bi ∧ blo < bj ∧ a.getD (bi - 1) ' ' = b.getD (bj - 1) ' '
    · rw [if_pos hg]
      have ih := extendLeft_spec a b alo blo fuel (bi - 1) (bj - 1) (size + 1)
        (by omega) (by omega)
      obtain ⟨i1, i2, i3, i4⟩ := ih
      exact ⟨i1, i2, by omega, by omega⟩
    · rw [if_neg hg]
      exact ⟨h1, h2, rfl, rfl⟩

lemma extendRight_spec (a b : List Char) (ahi bhi bi bj : Nat) :
    ∀ (fuel size : Nat), bi + size ≤ ahi → bj + size ≤ bhi →
      bi + extendRight a b ahi bhi bi bj fuel size ≤ ahi ∧
      bj + extendRight a b ahi bhi bi bj fuel size ≤ bhi
  | 0, size, h1, h2 => ⟨h1, h2⟩
  | fuel + 1, size, h1, h2 => by
    unfold extendRight
    by_cases hg : bi + size < ahi ∧ bj + size < bhi ∧
        a.getD (bi + size) ' ' = b.getD (bj + size) ' '
    · rw [if_pos hg]
      exact extendRight_spec a b ahi bhi bi bj fuel (size + 1) (by omega) (by omega)
    · rw [if_neg hg]
      exact ⟨h1, h2⟩

lemma find_longest_match_bounds (bget : Char → List Nat) (a b : List Char)
    (alo ahi blo bhi : Nat) (halo : alo ≤ ahi) (hblo : blo ≤ bhi) :
    BestIn alo ahi blo bhi (find_longest_match bget a b alo ahi blo bhi) := by
  have hm : BestIn alo ahi blo bhi (flmLoop bget a alo ahi blo bhi) := by
    have := (flmLoop_inv bget a alo ahi blo bhi halo hblo (ahi - alo) (Nat.le_refl _)).2
    simpa [flmLoop] using this
  obtain ⟨hm1, hm2, hm3, hm4⟩ := hm
  unfold find_longest_match
  set m := flmLoop bget a alo ahi blo bhi with hmeq
  have hel := extendLeft_spec a b alo blo m.i m.i m.j m.size hm1 hm2
  obtain ⟨e1, e2, e3, e4⟩ := hel
  set el := extendLeft a b alo blo m.i m.i m.j m.size with heleq
  have her := extendRight_spec a b ahi bhi el.1 el.2.1 ahi el.2.2
    (by omega) (by omega)
  exact ⟨e1, e2, her.1, her.2⟩

lemma totalMatched_le (bget : Char → List Nat) (a b : List Char) :
    ∀ (fuel alo ahi blo bhi : Nat), alo ≤ ahi → blo ≤ bhi →
      totalMatched bget a b fuel alo ahi blo bhi ≤ ahi - alo ∧
      totalMatched bget a b fuel alo ahi blo bhi ≤ bhi - blo
  | 0, alo, ahi, blo, bhi, _, _ => ⟨Nat.zero_le _, Nat.zero_le _⟩
  | fuel + 1, alo, ahi, blo, bhi, halo, hblo => by
    unfold totalMatched
    set m := find_longest_match bget a b alo ahi blo bhi with hmeq
    by_cases h0 : m.size = 0
    · rw [if_pos h0]
      exact ⟨Nat.zero_le _, Nat.zero_le _⟩
    · rw [if_neg h0]
      obtain ⟨b1, b2, b3, b4⟩ := find_longest_match_bounds bget a b alo ahi blo bhi halo hblo
      rw [← hmeq] at b1 b2 b3 b4
      have ihl := totalMatched_le bget a b fuel alo m.i blo m.j (by omega) (by omega)
      have ihr := totalMatched_le bget a b fuel (m.i + m.size) ahi (m.j + m.size) bhi
        (by omega) (by omega)
      obtain ⟨l1, l2⟩ := ihl
      obtain ⟨r1, r2⟩ := ihr
      exact ⟨by omega, by omega⟩

/-- C3 (counterexample). The similarity is not symmetric:
`calculate_similarity "ab" "bacb"` is 2/3 (the matcher anchors on the
leftmost length-1 match `a` and then still finds `b` to its right), while
`calculate_similarity "bacb" "ab"` is 1/3 (anchoring on `b` at position 0
leaves nothing either side). -/
theorem c3_similarity_asymmetry_counterexample :
    calculate_similarity "ab" "bacb" = 2 / 3 ∧
    calculate_similarity "bacb" "ab" = 1 / 3 ∧
    calculate_similarity "ab" "bacb" ≠ calculate_similarity "bacb" "ab" := by
  refine ⟨?_, ?_, ?_⟩ <;> with_unfolding_all decide

/-- C3 (amended). The similarity always lies in the closed interval from 0
to 1, but it is not symmetric in general
(`c3_similarity_asymmetry_counterexample`). -/
theorem c3_similarity_bounds :
    ∀ (text1 text2 : String), 0 ≤ calculate_similarity text1 text2 ∧
      calculate_similarity text1 text2 ≤ 1 := by
  intro text1 text2
  unfold calculate_similarity ratio
  set a := text1.toList
  set b := text2.toList
  by_cases hT : a.length + b.length = 0
  · rw [if_pos hT]
    norm_num
  · rw [if_neg hT]
    have hM := totalMatched_le (b2j b) a b (a.length + b.length + 1) 0 a.length 0 b.length
      (Nat.zero_le _) (Nat.zero_le _)
    set M := totalMatched (b2j b) a b (a.length + b.length + 1) 0 a.length 0 b.length
    have h2M : 2 * M ≤ a.length + b.length := by omega
    have hTpos : (0 : ℚ) < ((a.length + b.length : ℕ) : ℚ) := by
      exact_mod_cast Nat.pos_of_ne_zero hT
    constructor
    · apply div_nonneg
      · exact_mod_cast Nat.zero_le _
      · exact le_of_lt hTpos
    · rw [div_le_one hTpos]
      exact_mod_cast h2M

/-! ## ContentDeduplicator.normalize_text

The three regex substitutions and the final strip/lower are embedded as list
scans. Character classes are modelled on the ASCII and CJK fragment:
Python's Unicode regex class backslash-w also matches letters beyond ASCII,
which behave like the ASCII letters here and play no role in the claims. -/

/-- Python regex whitespace class (ASCII fragment). -/
def isSpaceChar (c : Char) : Bool :=
  c = ' ' || c = '\t' || c = '\n' || c = '\r' || c = '\x0b' || c = '\x0c'

/-- The CJK ideograph range u4e00..u9fff named explicitly by the source
regex. -/
def isCJK (c : Char) : Bool :=
  0x4e00 ≤ c.toNat && c.toNat ≤ 0x9fff

/-- Python regex word-character class (ASCII and CJK fragment): letters,
digits, the underscore, CJK ideographs. That the underscore is a word
character is exactly what claim C7 overlooks. -/
def isWordChar (c : Char) : Bool :=
  ('a' ≤ c && c ≤ 'z') || ('A' ≤ c && c ≤ 'Z') || ('0' ≤ c && c ≤ '9') ||
    c = '_' || isCJK c

/-- Scan for the '>' closing a tag opened just before this suffix; fails at
a newline, since the dot of the non-greedy tag pattern does not match one.
Returns what follows the '>'. -/
def tagEnd : List Char → Option (List Char)
  | [] => none
  | c :: rest =>
    if c = '>' then some rest else if c = '\n' then none else tagEnd rest

lemma tagEnd_length : ∀ (l r : List Char), tagEnd l = some r → r.length < l.length
  | [], r, h => by simp [tagEnd] at h
  | c :: rest, r, h => by
    unfold tagEnd at h
    by_cases h1 : c = '>'
    · rw [if_pos h1] at h
      injection h with h'
      subst h'
      simp
    · rw [if_neg h1] at h
      by_cases h2 : c = '\n'
      · rw [if_pos h2] at h
        exact absurd h (by simp)
      · rw [if_neg h2] at h
        have := tagEnd_length rest r h
        simp only [List.length_cons]
        omega

/-- Recursion worker for removeTags. Each step consumes at least one
character (`tagEnd_length`), so fuel equal to the list length never runs
out; the fuel-exhausted branch returns the rest unchanged and is never
reached from `removeTags`. -/
def removeTagsFuel : Nat → List Char → List Char
  | 0, l => l
  | _ + 1, [] => []
  | fuel + 1, c :: rest =>
    if c = '<' then
      match tagEnd rest with
      | some rest2 => removeTagsFuel fuel rest2
      | none => c :: removeTagsFuel fuel rest
    else c :: removeTagsFuel fuel rest

/-- First substitution of normalize_text: the non-greedy tag pattern with
empty replacement. At each '<' the leftmost-shortest match up to the nearest
'>' with no intervening newline is removed; a '<' with no such '>' stays and
scanning resumes after it. -/
def removeTags (l : List Char) : List Char :=
  removeTagsFuel l.length l

/-- Second substitution: every character that is not a word character, a CJK
ideograph or whitespace becomes a single space. -/
def replaceSpecial (l : List Char) : List Char :=
  l.map (fun c => if isWordChar c || isCJK c || isSpaceChar c then c else ' ')

/-- Third substitution as a two-state scan: each maximal whitespace run
becomes one space (the flag records being inside a run). -/
def collapseWs : Bool → List Char → List Char
  | _, [] => []
  | inRun, c :: rest =>
    if isSpaceChar c then
      if inRun then collapseWs true rest else ' ' :: collapseWs true rest
    else c :: collapseWs false rest

/-- str.strip(): drop whitespace from both ends. -/
def stripWs (l : List Char) : List Char :=
  ((l.dropWhile isSpaceChar).reverse.dropWhile isSpaceChar).reverse

/-- str.lower() on the modelled fragment: ASCII uppercase letters move down
by 32 to their lowercase counterparts, all other characters are unchanged. -/
def lowerChar (c : Char) : Char :=
  if 'A' ≤ c ∧ c ≤ 'Z' then Char.ofNat (c.toNat + 32) else c

/-- ContentDeduplicator.normalize_text: strip tags, replace special
characters by spaces, collapse whitespace runs, trim, lowercase. -/
def normalize_text (text : String) : String :=
  String.mk ((stripWs (collapseWs false (replaceSpecial (removeTags text.toList)))).map
    lowerChar)

lemma toList_mk (l : List Char) : (String.mk l).toList = l := rfl

lemma upper_case_split (c : Char) (P : Prop)
    (h1 : ∀ n, 65 ≤ n → n ≤ 90 → c = Char.ofNat n → P)
    (h2 : ¬ ('A' ≤ c ∧ c ≤ 'Z') → P) : P := by
  by_cases h : 'A' ≤ c ∧ c ≤ 'Z'
  · exact h1 c.toNat h.1 h.2 (Char.ofNat_toNat c).symm
  · exact h2 h

lemma lowerChar_fix (c : Char) : lowerChar (lowerChar c) = lowerChar c := by
  refine upper_case_split c _ ?_ ?_
  · intro n hn1 hn2 hc
    subst hc
    interval_cases n <;> decide
  · intro h
    simp only [lowerChar, if_neg h]

lemma lowerChar_word (c : Char) : isWordChar (lowerChar c) = isWordChar c := by
  refine upper_case_split c _ ?_ ?_
  · intro n hn1 hn2 hc
    subst hc
    interval_cases n <;> decide
  · intro h
    simp only [lowerChar, if_neg h]

lemma lowerChar_space (c : Char) : (lowerChar c = ' ') ↔ (c = ' ') := by
  refine upper_case_split c _ ?_ ?_
  · intro n hn1 hn2 hc
    subst hc
    interval_cases n <;> decide
  · intro h
    rw [lowerChar, if_neg h]

lemma replaceSpecial_classes (l : List Char) :
    ∀ c ∈ replaceSpecial l, isWordChar c = true ∨ isSpaceChar c = true := by
  intro c hc
  obtain ⟨x, _, hfx⟩ := List.mem_map.mp hc
  by_cases hx : isWordChar x || isCJK x || isSpaceChar x
  · rw [if_pos hx] at hfx
    subst hfx
    rcases Bool.or_eq_true_iff.mp hx with hx | hx
    · rcases Bool.or_eq_true_iff.mp hx with hx | hx
      · exact Or.inl hx
      · exact Or.inl (by simp [isWordChar, hx])
    · exact Or.inr hx
  · rw [if_neg hx] at hfx
    subst hfx
    exact Or.inr (by decide)

lemma collapseWs_spec : ∀ (flag : Bool) (l : List Char),
    (∀ c ∈ l, isWordChar c = true ∨ isSpaceChar c = true) →
    (∀ c ∈ collapseWs flag l, isWordChar c = true ∨ c = ' ') ∧
    (collapseWs flag l).Chain' (fun a b => ¬(a = ' ' ∧ b = ' ')) ∧
    (flag = true → ∀ c, (collapseWs flag l).head? = some c → c ≠ ' ')
  | flag, [], _ => by
    refine ⟨by simp [collapseWs], by simp [collapseWs], ?_⟩
    intro _ c hc
    simp [collapseWs] at hc
  | flag, c :: rest, hcl => by
    have hhead := hcl c (List.mem_cons_self c rest)
    have hrest : ∀ d ∈ rest, isWordChar d = true ∨ isSpaceChar d = true :=
      fun d hd => hcl d (List.mem_cons_of_mem c hd)
    by_cases hsp : isSpaceChar c = true
    · have iht := collapseWs_spec true rest hrest
      cases flag
      · have heq : collapseWs false (c :: rest) = ' ' :: collapseWs true rest := by
          simp [collapseWs, hsp]
        rw [heq]
        refine ⟨?_, ?_, ?_⟩
        · intro d hd
          rcases List.mem_cons.mp hd with hd | hd
          · exact Or.inr hd
          · exact iht.1 d hd
        · rw [List.chain'_cons']
          refine ⟨?_, iht.2.1⟩
          intro y hy
          intro hcontra
          exact iht.2.2 rfl y hy hcontra.2
        · intro hfl
          exact absurd hfl (by simp)
      · have heq : collapseWs true (c :: rest) = collapseWs true rest := by
          simp [collapseWs, hsp]
        rw [heq]
        exact ⟨iht.1, iht.2.1, fun _ => iht.2.2 rfl⟩
    · have ihf := collapseWs_spec false rest hrest
      have heq : collapseWs flag (c :: rest) = c :: collapseWs false rest := by
        simp [collapseWs, hsp]
      rw [heq]
      have hcne : c ≠ ' ' := by
        intro hcontra
        subst hcontra
        exact hsp (by decide)
      refine ⟨?_, ?_, ?_⟩
      · intro d hd
        rcases List.mem_cons.mp hd with hd | hd
        · subst hd
          rcases hhead with h | h
          · exact Or.inl h
          · exact absurd h hsp
        · exact ihf.1 d hd
      · rw [List.chain'_cons']
        refine ⟨?_, ihf.2.1⟩
        intro y _ hcontra
        exact hcne hcontra.1
      · intro _ d hd
        rw [List.head?_cons] at hd
        injection hd with hd
        subst hd
        exact hcne

lemma head?_dropWhile_ne_space (l : List Char) (c : Char)
    (h : (l.dropWhile isSpaceChar).head? = some c) : c ≠ ' ' := by
  have := List.head?_dropWhile_not isSpaceChar l
  rw [h] at this
  intro hcontra
  subst hcontra
  exact absurd this (by decide)

lemma stripWs_subset (l : List Char) : ∀ c ∈ stripWs l, c ∈ l := by
  intro c hc
  unfold stripWs at hc
  rw [List.mem_reverse] at hc
  have h1 := (List.dropWhile_sublist isSpaceChar).subset hc
  rw [List.mem_reverse] at h1
  exact (List.dropWhile_sublist isSpaceChar).subset h1

lemma stripWs_chain (l : List Char)
    (h : l.Chain' (fun a b => ¬(a = ' ' ∧ b = ' '))) :
    (stripWs l).Chain' (fun a b => ¬(a = ' ' ∧ b = ' ')) := by
  unfold stripWs
  rw [List.chain'_reverse]
  apply List.Chain'.suffix ?_ (List.dropWhile_suffix isSpaceChar)
  rw [List.chain'_reverse]
  apply (List.Chain'.suffix h (List.dropWhile_suffix isSpaceChar)).imp
  intro a b hab
  exact hab

lemma stripWs_getLast (l : List Char) (c : Char)
    (h : (stripWs l).getLast? = some c) : c ≠ ' ' := by
  unfold stripWs at h
  rw [List.getLast?_reverse] at h
  exact head?_dropWhile_ne_space _ c h

lemma stripWs_head (l : List Char) (c : Char)
    (h : (stripWs l).head? = some c) : c ≠ ' ' := by
  unfold stripWs at h
  rw [List.head?_reverse] at h
  obtain ⟨t, ht⟩ := List.dropWhile_suffix (l := (l.dropWhile isSpaceChar).reverse)
    (p := isSpaceChar)
  have hy : ((l.dropWhile isSpaceChar).reverse).getLast? = some c := by
    rw [← ht, List.getLast?_append, h]
    rfl
  rw [List.getLast?_reverse] at hy
  exact head?_dropWhile_ne_space l c hy

/-- Character classes claim C7 asserts for the output (the spec's words):
letter, CJK ideograph, digit, or space. -/
def claimC7Char (c : Char) : Bool :=
  ('a' ≤ c && c ≤ 'z') || ('A' ≤ c && c ≤ 'Z') || isCJK c ||
    ('0' ≤ c && c ≤ '9') || c = ' '

/-- C7 (counterexample). The underscore is a regex word character, so
normalize_text keeps it: the output for the input consisting of one
underscore is that underscore, which is neither a letter, a CJK ideograph, a
digit, nor a space. -/
theorem c7_underscore_counterexample :
    normalize_text "_" = "_" ∧
    (normalize_text "_").toList.all claimC7Char = false := by
  constructor
  · decide
  · decide

/-- C7 (amended). For every input, the output of normalize_text contains no
angle bracket (hence no tag), is lowercase (a second lowering changes
nothing), has no leading or trailing whitespace, has no two consecutive
whitespace characters, and every character is a word character — a letter,
digit, CJK ideograph, or an underscore, which the regex word class keeps
against the claim's letter/ideograph/digit list — or a single space. -/
theorem c7_normalize_shape :
    ∀ (text : String),
      ('<' ∉ (normalize_text text).toList ∧ '>' ∉ (normalize_text text).toList) ∧
      (∀ c ∈ (normalize_text text).toList, isWordChar c = true ∨ c = ' ') ∧
      (normalize_text text).toList.map lowerChar = (normalize_text text).toList ∧
      (normalize_text text).toList.head? ≠ some ' ' ∧
      (normalize_text text).toList.getLast? ≠ some ' ' ∧
      (normalize_text text).toList.Chain' (fun a b => ¬(a = ' ' ∧ b = ' ')) := by
  intro text
  have hout : (normalize_text text).toList =
      (stripWs (collapseWs false (replaceSpecial (removeTags text.toList)))).map
        lowerChar := rfl
  set L2 := collapseWs false (replaceSpecial (removeTags text.toList)) with hL2
  have hcoll := collapseWs_spec false (replaceSpecial (removeTags text.toList))
    (replaceSpecial_classes (removeTags text.toList))
  rw [← hL2] at hcoll
  have hword : ∀ c ∈ (normalize_text text).toList, isWordChar c = true ∨ c = ' ' := by
    intro c hc
    rw [hout] at hc
    obtain ⟨d, hd, hdc⟩ := List.mem_map.mp hc
    have hdL2 := stripWs_subset L2 d hd
    rcases hcoll.1 d hdL2 with h | h
    · left
      rw [← hdc, lowerChar_word]
      exact h
    · right
      rw [← hdc, h]
      decide
  refine ⟨⟨?_, ?_⟩, hword, ?_, ?_, ?_, ?_⟩
  · intro hm
    rcases hword '<' hm with h | h
    · exact absurd h (by decide)
    · exact absurd h (by decide)
  · intro hm
    rcases hword '>' hm with h | h
    · exact absurd h (by decide)
    · exact absurd h (by decide)
  · rw [hout, List.map_map]
    apply List.map_congr_left
    intro d _
    exact lowerChar_fix d
  · rw [hout, List.head?_map]
    intro hm
    obtain ⟨d, hd, hdeq⟩ := Option.map_eq_some'.mp hm
    exact stripWs_head L2 d hd ((lowerChar_space d).mp hdeq)
  · rw [hout, List.getLast?_map]
    intro hm
    obtain ⟨d, hd, hdeq⟩ := Option.map_eq_some'.mp hm
    exact stripWs_getLast L2 d hd ((lowerChar_space d).mp hdeq)
  · rw [hout]
    rw [List.chain'_map]
    apply (stripWs_chain L2 hcoll.2.1).imp
    intro a b hab hcontra
    exact hab ⟨(lowerChar_space a).mp hcontra.1, (lowerChar_space b).mp hcontra.2⟩

/-! ## NewsItem and hashlib.md5 (generate_uid)

`NewsItem.generate_uid` hex-digests the MD5 of the UTF-8 encoding of
`source_timestamp_content`. MD5 is implemented over lists of byte values as
naturals, with 32-bit words as naturals reduced modulo 2^32. -/

/-- UTF-8 encoding of one code point as byte values (what str.encode does
per character). -/
def utf8Bytes (c : Char) : List Nat :=
  let n := c.toNat
  if n < 0x80 then [n]
  else if n < 0x800 then [0xc0 + n / 64, 0x80 + n % 64]
  else if n < 0x10000 then [0xe0 + n / 4096, 0x80 + n / 64 % 64, 0x80 + n % 64]
  else [0xf0 + n / 262144, 0x80 + n / 4096 % 64, 0x80 + n / 64 % 64, 0x80 + n % 64]

/-- str.encode of a whole string. -/
def strBytes (s : String) : List Nat :=
  (s.toList.map utf8Bytes).flatten

/-- Reduction modulo 2^32. -/
def w32 (n : Nat) : Nat := n % 4294967296

/-- Rotate a 32-bit word left by `s` places. -/
def rotl32 (x s : Nat) : Nat := w32 (x * 2 ^ s) + x / 2 ^ (32 - s)

/-- Bitwise complement within 32 bits. -/
def not32 (x : Nat) : Nat := 0xffffffff ^^^ x

/-- The 64 MD5 sine-derived constants. -/
def md5K : List Nat := [
  0xd76aa478, 0xe8c7b756, 0x242070db, 0xc1bdceee,
  0xf57c0faf, 0x4787c62a, 0xa8304613, 0xfd469501,
  0x698098d8, 0x8b44f7af, 0xffff5bb1, 0x895cd7be,
  0x6b901122, 0xfd987193, 0xa679438e, 0x49b40821,
  0xf61e2562, 0xc040b340, 0x265e5a51, 0xe9b6c7aa,
  0xd62f105d, 0x02441453, 0xd8a1e681, 0xe7d3fbc8,
  0x21e1cde6, 0xc33707d6, 0xf4d50d87, 0x455a14ed,
  0xa9e3e905, 0xfcefa3f8, 0x676f02d9, 0x8d2a4c8a,
  0xfffa3942, 0x8771f681, 0x6d9d6122, 0xfde5380c,
  0xa4beea44, 0x4bdecfa9, 0xf6bb4b60, 0xbebfbc70,
  0x289b7ec6, 0xeaa127fa, 0xd4ef3085, 0x04881d05,
  0xd9d4d039, 0xe6db99e5, 0x1fa27cf8, 0xc4ac5665,
  0xf4292244, 0x432aff97, 0xab9423a7, 0xfc93a039,
  0x655b59c3, 0x8f0ccc92, 0xffeff47d, 0x85845dd1,
  0x6fa87e4f, 0xfe2ce6e0, 0xa3014314, 0x4e0811a1,
  0xf7537e82, 0xbd3af235, 0x2ad7d2bb, 0xeb86d391]

/-- The 64 MD5 per-round left-rotation amounts. -/
def md5S : List Nat := [
  7, 12, 17, 22, 7, 12, 17, 22, 7, 12, 17, 22, 7, 12, 17, 22,
  5, 9, 14, 20, 5, 9, 14, 20, 5, 9, 14, 20, 5, 9, 14, 20,
  4, 11, 16, 23, 4, 11, 16, 23, 4, 11, 16, 23, 4, 11, 16, 23,
  6, 10, 15, 21, 6, 10, 15, 21, 6, 10, 15, 21, 6, 10, 15, 21]

/-- MD5 padding: append 0x80, zero-fill to 56 mod 64, then the bit length
as eight little-endian bytes. -/
def md5Pad (msg : List Nat) : List Nat :=
  let len := msg.length
  let zeros := (120 - (len + 1) % 64) % 64
  msg ++ [0x80] ++ List.replicate zeros 0 ++
    (List.range 8).map (fun i => len * 8 / 2 ^ (8 * i) % 256)

/-- The little-endian 32-bit words of one 64-byte chunk. -/
def md5Word (chunk : List Nat) (j : Nat) : Nat :=
  chunk.getD (4 * j) 0 + 256 * chunk.getD (4 * j + 1) 0 +
    65536 * chunk.getD (4 * j + 2) 0 + 16777216 * chunk.getD (4 * j + 3) 0

/-- One of the 64 MD5 steps. -/
def md5Step (chunk : List Nat) (st : Nat × Nat × Nat × Nat) (i : Nat) :
    Nat × Nat × Nat × Nat :=
  let a := st.1
  let b := st.2.1
  let c := st.2.2.1
  let d := st.2.2.2
  let fg : Nat × Nat :=
    if i < 16 then ((b &&& c) ||| (not32 b &&& d), i)
    else if i < 32 then ((d &&& b) ||| (not32 d &&& c), (5 * i + 1) % 16)
    else if i < 48 then (b ^^^ c ^^^ d, (3 * i + 5) % 16)
    else (c ^^^ (b ||| not32 d), (7 * i) % 16)
  let tmp := w32 (a + fg.1 + md5K.getD i 0 + md5Word chunk fg.2)
  (d, w32 (b + rotl32 tmp (md5S.getD i 0)), b, c)

/-- Process one 64-byte chunk into the running state. -/
def md5Chunk (st : Nat × Nat × Nat × Nat) (chunk : List Nat) :
    Nat × Nat × Nat × Nat :=
  let r := (List.range 64).foldl (md5Step chunk) st
  (w32 (st.1 + r.1), w32 (st.2.1 + r.2.1), w32 (st.2.2.1 + r.2.2.1),
    w32 (st.2.2.2 + r.2.2.2))

/-- Split a padded message into its 64-byte chunks. -/
def md5Chunks (l : List Nat) : List (List Nat) :=
  (List.range ((l.length + 63) / 64)).map (fun i => (l.drop (64 * i)).take 64)

/-- Lowercase hexadecimal rendering of one byte. -/
def hexByte (n : Nat) : List Char :=
  let digit := fun d => "0123456789abcdef".toList.getD d '0'
  [digit (n / 16), digit (n % 16)]

/-- Lowercase hex digest of the final MD5 state: each of the four words as
four little-endian bytes. -/
def md5Digest (st : Nat × Nat × Nat × Nat) : String :=
  let wordBytes := fun (w : Nat) => [w % 256, w / 256 % 256, w / 65536 % 256,
    w / 16777216 % 256]
  String.mk (((wordBytes st.1 ++ wordBytes st.2.1 ++ wordBytes st.2.2.1 ++
    wordBytes st.2.2.2).map hexByte).flatten)

/-- hashlib.md5(bytes).hexdigest(). -/
def md5Hex (msg : List Nat) : String :=
  md5Digest ((md5Chunks (md5Pad msg)).foldl md5Chunk
    (0x67452301, 0xefcdab89, 0x98badcfe, 0x10325476))

/-- NewsItem.generate_uid: the MD5 hex digest of the UTF-8 encoding of
source, timestamp and content joined by underscores. -/
def generate_uid (source timestamp content : String) : String :=
  md5Hex (strBytes (source ++ "_" ++ timestamp ++ "_" ++ content))

/-- The NewsItem dataclass. -/
structure NewsItem where
  source : String
  timestamp : String
  content : String
  uid : String
deriving DecidableEq

/-- NewsItem construction including __post_init__: an empty uid argument
(the dataclass default) is replaced by generate_uid once, at construction;
nothing ever reassigns it afterwards. -/
def mkNewsItem (source timestamp content uid : String) : NewsItem :=
  ⟨source, timestamp, content,
    if uid = "" then generate_uid source timestamp content else uid⟩

set_option maxRecDepth 8000 in
/-- Check of the MD5 embedding against a well-known digest. -/
lemma md5Hex_nil : md5Hex [] = "d41d8cd98f00b204e9800998ecf8427e" := by decide

/-- C8. Identity is deterministic: two NewsItems constructed without a
supplied uid from identical (source, timestamp, content) triples get the
same uid, and that uid is exactly `generate_uid` of the triple, computed
once at construction — the embedding is immutable, and no Python code
reassigns `uid` after `__post_init__`. -/
theorem c8_identity_deterministic (s1 t1 c1 s2 t2 c2 : String)
    (hs : s1 = s2) (ht : t1 = t2) (hc : c1 = c2) :
    (mkNewsItem s1 t1 c1 "").uid = (mkNewsItem s2 t2 c2 "").uid ∧
    (mkNewsItem s1 t1 c1 "").uid = generate_uid s1 t1 c1 := by
  subst hs
  subst ht
  subst hc
  exact ⟨rfl, by simp [mkNewsItem]⟩

/-- Witness for C8 at a concrete triple. -/
theorem c8_identity_deterministic_witness :
    (mkNewsItem "X" "2024-01-01 09:00:00" "Price up" "").uid =
      (mkNewsItem "X" "2024-01-01 09:00:00" "Price up" "").uid ∧
    (mkNewsItem "X" "2024-01-01 09:00:00" "Price up" "").uid =
      generate_uid "X" "2024-01-01 09:00:00" "Price up" :=
  c8_identity_deterministic "X" "2024-01-01 09:00:00" "Price up"
    "X" "2024-01-01 09:00:00" "Price up" rfl rfl rfl

/-! ## NewsAggregator and ContentDeduplicator state

sent_ids is an insertion-ordered mapping uid → last-sent epoch seconds
(Python dict), recent_contents the deduplicator's bounded deque of
normalized texts. Times and the 0.8 threshold are modelled as exact
rationals. -/

/-- Constant MAX_SENT_IDS from main.py. -/
def MAX_SENT_IDS : Nat := 10000

/-- Constant MAX_AGE from main.py (24 hours in seconds). -/
def MAX_AGE : ℚ := 86400

/-- Constant CLEAN_INTERVAL from main.py. -/
def CLEAN_INTERVAL : Nat := 1440

/-- ContentDeduplicator max_recent_contents default. -/
def max_recent_contents : Nat := 1000

/-- The aggregator's dedup state. -/
structure AggState where
  sent_ids : List (String × ℚ)
  recent_contents : List String
deriving DecidableEq

/-- ContentDeduplicator.is_similar_content: the normalized content is the
first ratio argument, compared against every stored text in order; any
similarity strictly above the threshold (default 0.8) is a hit. -/
def is_similar_content (recent : List String) (content : String)
    (threshold : ℚ) : Bool :=
  recent.any (fun old => threshold < calculate_similarity (normalize_text content) old)

/-- NewsAggregator.is_duplicate_news: a uid hit in sent_ids, else a
similarity hit against recent contents. The source performs no writes; the
returned state is the state the call leaves behind. -/
def is_duplicate_news (st : AggState) (item : NewsItem) : Bool × AggState :=
  if (st.sent_ids.map Prod.fst).contains item.uid then (true, st)
  else if is_similar_content st.recent_contents item.content (4 / 5) then (true, st)
  else (false, st)

/-- ContentDeduplicator.add_content: append the normalized text; the deque
drops from the front beyond its capacity. -/
def add_content (recent : List String) (content : String) : List String :=
  let r := recent ++ [normalize_text content]
  r.drop (r.length - max_recent_contents)

/-- One iteration of the send loop of process_and_send_news: skip
duplicates; on a successful send record the uid at the current time (the
uid is new, so the dict insertion is an append), record the normalized
content and count the send; on a failed send change nothing. -/
def process_one (st : AggState) (sent : Nat) (item : NewsItem) (httpOk : Bool)
    (now : ℚ) : AggState × Nat :=
  if (is_duplicate_news st item).1 then (st, sent)
  else if httpOk then
    (⟨st.sent_ids ++ [(item.uid, now)], add_content st.recent_contents item.content⟩,
      sent + 1)
  else (st, sent)

/-- The send loop over the whole sorted unique batch: each item comes with
its send outcome and send time. -/
def process_list (st : AggState) (sent : Nat) :
    List (NewsItem × Bool × ℚ) → AggState × Nat
  | [] => (st, sent)
  | e :: rest =>
    let r := process_one st sent e.1 e.2.1 e.2.2
    process_list r.1 r.2 rest

/-- C9. The duplicate check is pure and returns exactly the disjunction the
spec states: the returned state is the input state, and the verdict is true
iff the uid is a key of sent_ids or some stored text has similarity
strictly above 0.8 with the normalized content. -/
theorem c9_is_duplicate_pure_and_correct :
    ∀ (st : AggState) (item : NewsItem),
      (is_duplicate_news st item).2 = st ∧
      ((is_duplicate_news st item).1 = true ↔
        (∃ ts, (item.uid, ts) ∈ st.sent_ids) ∨
        ∃ old ∈ st.recent_contents,
          (4 : ℚ) / 5 < calculate_similarity (normalize_text item.content) old) := by
  intro st item
  constructor
  · unfold is_duplicate_news
    split_ifs <;> rfl
  · unfold is_duplicate_news
    by_cases h1 : (st.sent_ids.map Prod.fst).contains item.uid
    · rw [if_pos h1]
      refine iff_of_true rfl (Or.inl ?_)
      have hmem : item.uid ∈ st.sent_ids.map Prod.fst := by simpa using h1
      obtain ⟨e, he, heq⟩ := List.mem_map.mp hmem
      refine ⟨e.2, ?_⟩
      rw [← heq]
      simpa using he
    · rw [if_neg h1]
      by_cases h2 : is_similar_content st.recent_contents item.content (4 / 5)
      · rw [if_pos h2]
        refine iff_of_true rfl (Or.inr ?_)
        unfold is_similar_content at h2
        obtain ⟨old, hold, hlt⟩ := List.any_eq_true.mp h2
        exact ⟨old, hold, by simpa using hlt⟩
      · rw [if_neg h2]
        refine iff_of_false (by simp) ?_
        rintro (⟨ts, hts⟩ | ⟨old, hold, hlt⟩)
        · refine h1 ?_
          have : item.uid ∈ st.sent_ids.map Prod.fst :=
            List.mem_map.mpr ⟨(item.uid, ts), hts, rfl⟩
          simpa using this
        · exact h2 (List.any_eq_true.mpr ⟨old, hold, by simpa using hlt⟩)

/-- C10. Failed-delivery atomicity: for a non-duplicate item whose send
returns False, the step leaves sent_ids, recent_contents and the cycle's
counter unchanged, and the loop continues on the rest from the same state. -/
theorem c10_failed_send_frame (st : AggState) (sent : Nat) (item : NewsItem)
    (now : ℚ) (rest : List (NewsItem × Bool × ℚ))
    (hdup : (is_duplicate_news st item).1 = false) :
    process_one st sent item false now = (st, sent) ∧
    process_list st sent ((item, false, now) :: rest) = process_list st sent rest := by
  have h1 : process_one st sent item false now = (st, sent) := by
    unfold process_one
    rw [hdup]
    simp
  refine ⟨h1, ?_⟩
  show process_list (process_one st sent item false now).1
    (process_one st sent item false now).2 rest = process_list st sent rest
  rw [h1]

/-- Witness for C10 at a concrete fresh state and item. -/
theorem c10_failed_send_frame_witness :
    process_one ⟨[], []⟩ 0 (mkNewsItem "X" "2024-01-01 09:00:00" "Price up" "")
        false 0 = (⟨[], []⟩, 0) ∧
    process_list ⟨[], []⟩ 0
        [(mkNewsItem "X" "2024-01-01 09:00:00" "Price up" "", false, 0)] =
      process_list ⟨[], []⟩ 0 [] :=
  c10_failed_send_frame ⟨[], []⟩ 0
    (mkNewsItem "X" "2024-01-01 09:00:00" "Price up" "") 0 [] (by decide)

/-- NewsAggregator.cleanup_old_records on the sent_ids mapping: drop entries
aged MAX_AGE or more; if more than MAX_SENT_IDS remain, keep the
MAX_SENT_IDS most recent (a stable descending sort by timestamp, like
Python's sorted with reverse=True, then a prefix). -/
def cleanup_old_records (now : ℚ) (sent_ids : List (String × ℚ)) :
    List (String × ℚ) :=
  let filtered := sent_ids.filter (fun e => now - e.2 < MAX_AGE)
  if MAX_SENT_IDS < filtered.length then
    (filtered.mergeSort (fun a b => decide (b.2 ≤ a.2))).take MAX_SENT_IDS
  else filtered

/-- C5. After the sweep no retained entry has age at least MAX_AGE, the
result never exceeds MAX_SENT_IDS entries, and when the age filter leaves
more than MAX_SENT_IDS entries exactly MAX_SENT_IDS are retained and every
retained timestamp is at least every discarded one (with distinct
timestamps: exactly the most recent ones; ties are broken stably). -/
theorem c5_cleanup_retention :
    ∀ (now : ℚ) (ids : List (String × ℚ)),
      (∀ e ∈ cleanup_old_records now ids, now - e.2 < MAX_AGE) ∧
      (cleanup_old_records now ids).length ≤ MAX_SENT_IDS ∧
      (MAX_SENT_IDS < (ids.filter (fun e => now - e.2 < MAX_AGE)).length →
        (cleanup_old_records now ids).length = MAX_SENT_IDS ∧
        ∀ a ∈ cleanup_old_records now ids,
          ∀ b ∈ ((ids.filter (fun e => now - e.2 < MAX_AGE)).mergeSort
            (fun a b => decide (b.2 ≤ a.2))).drop MAX_SENT_IDS, b.2 ≤ a.2) := by
  intro now ids
  set le : (String × ℚ) → (String × ℚ) → Bool := fun a b => decide (b.2 ≤ a.2) with hle
  set filtered := ids.filter (fun e => now - e.2 < MAX_AGE) with hfiltered
  have htrans : ∀ (a b c : String × ℚ), le a b → le b c → le a c := by
    intro a b c hab hbc
    simp only [hle, decide_eq_true_eq] at hab hbc ⊢
    exact le_trans hbc hab
  have htotal : ∀ (a b : String × ℚ), le a b || le b a := by
    intro a b
    simp only [hle]
    rcases le_total b.2 a.2 with h | h <;> simp [h]
  have hmemf : ∀ e ∈ filtered, now - e.2 < MAX_AGE := by
    intro e he
    have := List.of_mem_filter he
    simpa using this
  have hpair := List.sorted_mergeSort htrans htotal filtered
  unfold cleanup_old_records
  rw [← hfiltered, ← hle]
  by_cases hover : MAX_SENT_IDS < filtered.length
  · rw [if_pos hover]
    set sorted := filtered.mergeSort le with hsorted
    have hlen : sorted.length = filtered.length := List.length_mergeSort filtered
    refine ⟨?_, ?_, ?_⟩
    · intro e he
      have hm : e ∈ sorted := List.mem_of_mem_take he
      exact hmemf e (List.mem_mergeSort.mp hm)
    · rw [List.length_take, hlen]
      omega
    · intro _
      constructor
      · rw [List.length_take, hlen]
        omega
      · intro a ha b hb
        have hsplit := sorted.take_append_drop MAX_SENT_IDS
        rw [← hsplit] at hpair
        have := (List.pairwise_append.mp hpair).2.2 a ha b hb
        simpa [hle] using this
  · rw [if_neg hover]
    exact ⟨hmemf, by omega, fun h => absurd h hover⟩

/-- Persistence and sweep events of one run-loop iteration. -/
inductive CycleEvent where
  | saved (snapshot : List (String × ℚ))
  | swept
deriving DecidableEq

/-- Tail of one NewsAggregator.run iteration after process_and_send_news:
save the current sent_ids, then on every CLEAN_INTERVAL-th cycle run
cleanup_old_records — with no further save. Returns the resulting sent_ids
and the ordered events of the iteration. -/
def run_cycle_tail (loop_count : Nat) (now : ℚ)
    (sent_ids : List (String × ℚ)) : List (String × ℚ) × List CycleEvent :=
  let ev := CycleEvent.saved sent_ids
  if loop_count % CLEAN_INTERVAL = 0 then
    (cleanup_old_records now sent_ids, [ev, CycleEvent.swept])
  else (sent_ids, [ev])

/-- The persistence behaviour claim C6 asserts (from the spec's words):
somewhere after the sweep event there is a save whose snapshot is the
post-sweep store. -/
def specC6_saved_after_sweep (r : List (String × ℚ) × List CycleEvent) : Prop :=
  ∃ i j, i < j ∧ r.2.get? i = some CycleEvent.swept ∧
    r.2.get? j = some (CycleEvent.saved r.1)

/-- C6 (counterexample). On a sweep cycle the code saves before the sweep
and never after it: with one entry old enough for the sweep to drop, the
iteration's events are the pre-sweep save followed by the sweep, the final
store is empty, and no save of the post-sweep store follows the sweep, so
the on-disk record still holds the dropped entry. -/
theorem c6_no_save_after_sweep_counterexample :
    run_cycle_tail 1440 200000 [("u", 0)] =
      ([], [CycleEvent.saved [("u", 0)], CycleEvent.swept]) ∧
    ¬ specC6_saved_after_sweep (run_cycle_tail 1440 200000 [("u", 0)]) := by
  have heq : run_cycle_tail 1440 200000 [("u", 0)] =
      ([], [CycleEvent.saved [("u", 0)], CycleEvent.swept]) := by
    with_unfolding_all decide
  refine ⟨heq, ?_⟩
  rw [heq]
  rintro ⟨i, j, hij, hi, hj⟩
  rcases i with _ | _ | i
  · exact absurd hi (by simp)
  · rcases j with _ | _ | j
    · omega
    · omega
    · exact absurd hj (by simp)
  · have : (i + 2) ≥ 2 := by omega
    exact absurd hi (by simp)

/-- C6 (amended). On every cycle whose number is a multiple of
CLEAN_INTERVAL the sweep runs, but the store is persisted before the sweep
and not again afterwards: the iteration's events are exactly the save of
the pre-sweep store followed by the sweep, and the resulting in-memory
store is the swept one. -/
theorem c6_save_before_sweep (loop_count : Nat) (now : ℚ)
    (sent_ids : List (String × ℚ)) (h : loop_count % CLEAN_INTERVAL = 0) :
    run_cycle_tail loop_count now sent_ids =
      (cleanup_old_records now sent_ids,
        [CycleEvent.saved sent_ids, CycleEvent.swept]) := by
  unfold run_cycle_tail
  rw [if_pos h]

/-- Witness for C6 (amended) at cycle 1440 with an empty store. -/
theorem c6_save_before_sweep_witness :
    run_cycle_tail 1440 0 [] =
      (cleanup_old_records 0 [], [CycleEvent.saved [], CycleEvent.swept]) :=
  c6_save_before_sweep 1440 0 [] (by decide)

/-- Batch dedup of process_and_send_news: first occurrence of each uid
wins, later ones are dropped (the Python seen_uids set as a list). -/
def dedup_batch (seen : List String) : List NewsItem → List NewsItem
  | [] => []
  | it :: rest =>
    if seen.contains it.uid then dedup_batch seen rest
    else it :: dedup_batch (it.uid :: seen) rest

/-- Python string comparison (less or equal) as the code-point lexicographic
order on the character lists: an empty string precedes everything, a proper
prefix precedes its extensions, otherwise the first differing code point
decides. -/
def listLE : List Char → List Char → Bool
  | [], _ => true
  | _ :: _, [] => false
  | c :: cs, d :: ds => if c = d then listLE cs ds else decide (c < d)

/-- The batch sort of process_and_send_news: Python's stable list.sort with
the raw timestamp string as key — plain lexicographic string order, no
parsing. -/
def sort_batch (items : List NewsItem) : List NewsItem :=
  (dedup_batch [] items).mergeSort
    (fun a b => listLE a.timestamp.toList b.timestamp.toList)

/-- Sort key claim C4 asserts (from the spec's words): the timestamp parsed
in the feed format, encoded as a single natural; an unparsable timestamp is
none and is to sort as the earliest value. The code performs no such
parsing; this definition exists only to compare the spec with the code. -/
def specParsedKey (ts : String) : Option Nat :=
  match ts.toList with
  | [y1, y2, y3, y4, '-', m1, m2, '-', d1, d2, ' ', h1, h2, ':', n1, n2, ':', s1, s2] =>
    if y1.isDigit && y2.isDigit && y3.isDigit && y4.isDigit && m1.isDigit &&
        m2.isDigit && d1.isDigit && d2.isDigit && h1.isDigit && h2.isDigit &&
        n1.isDigit && n2.isDigit && s1.isDigit && s2.isDigit then
      let v2 := fun (a b : Char) => 10 * (a.toNat - 48) + (b.toNat - 48)
      let year := 10 * (10 * (10 * (y1.toNat - 48) + (y2.toNat - 48)) +
        (y3.toNat - 48)) + (y4.toNat - 48)
      let mo := v2 m1 m2
      let da := v2 d1 d2
      let ho := v2 h1 h2
      let mi := v2 n1 n2
      let se := v2 s1 s2
      if 1 ≤ mo ∧ mo ≤ 12 ∧ 1 ≤ da ∧ da ≤ 31 ∧ ho ≤ 23 ∧ mi ≤ 59 ∧ se ≤ 59 then
        some (((((year * 13 + mo) * 32 + da) * 24 + ho) * 60 + mi) * 60 + se)
      else none
    else none
  | _ => none

/-- Adjacent-pairs check that a batch is sorted the way claim C4 asserts:
by parsed key, with unparsable timestamps as the earliest value. -/
def specSortedC4 : List NewsItem → Bool
  | [] => true
  | [_] => true
  | a :: b :: rest =>
    (match specParsedKey a.timestamp, specParsedKey b.timestamp with
      | none, _ => true
      | some _, none => false
      | some x, some y => decide (x ≤ y)) && specSortedC4 (b :: rest)

unseal List.merge List.mergeSort in
/-- C4 (counterexample). The code sorts by the raw timestamp string: an item
with the unparsable timestamp "zzz" sorts after a parseable 2024 timestamp
(lexicographically larger), not as the earliest value the claim asserts, so
the code's output is not sorted by the claim's parsed key. -/
theorem c4_unparsable_sorts_last_counterexample :
    sort_batch [mkNewsItem "X" "2024-01-01 00:00:00" "alpha" "u1",
        mkNewsItem "Y" "zzz" "beta" "u2"] =
      [mkNewsItem "X" "2024-01-01 00:00:00" "alpha" "u1",
        mkNewsItem "Y" "zzz" "beta" "u2"] ∧
    specParsedKey "zzz" = none ∧
    specParsedKey "2024-01-01 00:00:00" ≠ none ∧
    specSortedC4 (sort_batch [mkNewsItem "X" "2024-01-01 00:00:00" "alpha" "u1",
        mkNewsItem "Y" "zzz" "beta" "u2"]) = false := by
  refine ⟨?_, ?_, ?_, ?_⟩ <;> decide

lemma listLE_trans : ∀ (x y z : List Char), listLE x y = true → listLE y z = true →
    listLE x z = true
  | [], _, _, _, _ => rfl
  | _ :: _, [], _, h1, _ => absurd h1 (by simp [listLE])
  | _ :: _, _ :: _, [], _, h2 => absurd h2 (by simp [listLE])
  | c :: cs, d :: ds, e :: es, h1, h2 => by
    unfold listLE at h1 h2 ⊢
    by_cases hcd : c = d
    · rw [if_pos hcd] at h1
      by_cases hde : d = e
      · rw [if_pos hde] at h2
        rw [if_pos (hcd.trans hde)]
        exact listLE_trans cs ds es h1 h2
      · rw [if_neg hde] at h2
        have hlt : d < e := of_decide_eq_true h2
        rw [if_neg (fun h => hde (hcd.symm.trans h))]
        refine decide_eq_true ?_
        rw [hcd]
        exact hlt
    · rw [if_neg hcd] at h1
      have hlt1 : c < d := of_decide_eq_true h1
      by_cases hde : d = e
      · rw [if_neg (fun h => hcd (h.trans hde.symm))]
        exact decide_eq_true (hde ▸ hlt1)
      · rw [if_neg hde] at h2
        have hlt2 : d < e := of_decide_eq_true h2
        have hlt : c < e := lt_trans hlt1 hlt2
        rw [if_neg (ne_of_lt hlt)]
        exact decide_eq_true hlt

lemma listLE_total : ∀ (x y : List Char), listLE x y || listLE y x
  | [], _ => by simp [listLE]
  | _ :: _, [] => by simp [listLE]
  | c :: cs, d :: ds => by
    unfold listLE
    by_cases hcd : c = d
    · rw [if_pos hcd, if_pos hcd.symm]
      exact listLE_total cs ds
    · rw [if_neg hcd, if_neg (fun h => hcd h.symm)]
      rcases lt_or_gt_of_ne (show c ≠ d from hcd) with h | h
      · simp [h]
      · simp [h]

/-- C4 (amended). The deduplicated batch is sorted ascending by the raw
timestamp string under code-point lexicographic string order (which
coincides with chronological order for the uniformly zero-padded feed
format), and the output is a permutation of the uid-deduplicated batch —
the sort is total, so a malformed timestamp never aborts the cycle, but it
sorts by its string value, not as the earliest. -/
theorem c4_sort_by_raw_string :
    ∀ (items : List NewsItem),
      (sort_batch items).Pairwise
        (fun a b => listLE a.timestamp.toList b.timestamp.toList = true) ∧
      List.Perm (sort_batch items) (dedup_batch [] items) := by
  intro items
  constructor
  · have htrans : ∀ (a b c : NewsItem),
        listLE a.timestamp.toList b.timestamp.toList →
        listLE b.timestamp.toList c.timestamp.toList →
        listLE a.timestamp.toList c.timestamp.toList := by
      intro a b c hab hbc
      exact listLE_trans _ _ _ hab hbc
    have htotal : ∀ (a b : NewsItem),
        listLE a.timestamp.toList b.timestamp.toList ||
        listLE b.timestamp.toList a.timestamp.toList := by
      intro a b
      exact listLE_total _ _
    exact List.sorted_mergeSort htrans htotal (dedup_batch [] items)
  · exact List.mergeSort_perm (dedup_batch [] items) _

end Amsgbot
